import Mathlib

/-!
Verification of the release-publishing orchestrator (`src/publish.ts`).

The development embeds the two core components:

* the resumable step sequencer (`step` and the per-directory loop of
  `publish`), modelled by `runStep`, `runSteps`, `runRepo`, `publishRepos`
  and `publish`, together with a trace of executed/skipped steps and of
  every durable write of the progress store; and
* the remote workflow-run validator (`validateWorkflow`), modelled by
  `processRuns` / `validateLoop` over an explicit list of polling
  responses, instrumented with the list of not-yet-completed runs the
  loop actually observes.

Callbacks of the steps are external collaborators; they are abstracted by
a success/failure outcome per step.
-/

/-- The persisted progress store `directoryStates`: a finite mapping from
directory name to the step-name marker, embedded as an association list. -/
def Store := List (String × String)

instance : DecidableEq Store := by
  unfold Store
  infer_instance

/-- Reading `directoryStates[directory]`: `none` plays the role of
JavaScript `undefined`. -/
def storeGet : Store → String → Option String
  | [], _ => none
  | (key, v) :: rest, k => if key = k then some v else storeGet rest k

/-- The assignment `directoryStates[directory] = state`. -/
def storeSet : Store → String → String → Store
  | [], k, v => [(k, v)]
  | (key, v0) :: rest, k, v =>
    if key = k then (k, v) :: rest else (key, v0) :: storeSet rest k v

/-- The statement `delete directoryStates[directory]`. -/
def storeErase : Store → String → Store
  | [], _ => []
  | (key, v0) :: rest, k =>
    if key = k then storeErase rest k else (key, v0) :: storeErase rest k

theorem storeGet_set_self (st : Store) (k v : String) :
    storeGet (storeSet st k v) k = some v := by
  induction st with
  | nil => simp [storeSet, storeGet]
  | cons hd tl ih =>
    by_cases h : hd.1 = k
    · simp [storeSet, storeGet, h]
    · simpa [storeSet, storeGet, h] using ih

theorem storeGet_erase_self (st : Store) (k : String) :
    storeGet (storeErase st k) k = none := by
  induction st with
  | nil => simp [storeErase, storeGet]
  | cons hd tl ih =>
    by_cases h : hd.1 = k
    · simpa [storeErase, h] using ih
    · simpa [storeErase, storeGet, h] using ih

/-- Observable events of a sequencer run: a step callback being invoked
(`exec`), a step being skipped because the marker names a different step
(`skip`), and a durable write of the progress store with the snapshot
that is written (`persist`, the `fs.writeFileSync` of the state file). -/
inductive Event where
  | exec (name : String)
  | skip (name : String)
  | persist (st : Store)
deriving DecidableEq

/-- Whether a step's callback succeeds or throws; callbacks are external
collaborators, abstracted by their outcome. -/
inductive StepOutcome where
  | ok
  | err
deriving DecidableEq

/-- One named step of the sequence with the outcome its callback will
produce. -/
structure StepDef where
  name : String
  outcome : StepOutcome
deriving DecidableEq

/-- The body of `step` once the marker test allowed execution: record the
marker in the in-memory store, invoke the callback, on success delete the
marker, and in the `finally` block persist the current snapshot. -/
def runStepExec (dir : String) (st : Store) (s : StepDef) :
    List Event × Store × Bool :=
  let st1 := storeSet st dir s.name
  match s.outcome with
  | StepOutcome.ok =>
    let st2 := storeErase st1 dir
    ([Event.exec s.name, Event.persist st2], st2, true)
  | StepOutcome.err =>
    ([Event.exec s.name, Event.persist st1], st1, false)

/-- The `step` function of `publish.ts`: execute when the marker is
absent or equals this step's name, otherwise skip (no durable write on a
skip). The `Bool` is true when control continues to the next step. -/
def runStep (dir : String) (st : Store) (s : StepDef) :
    List Event × Store × Bool :=
  match storeGet st dir with
  | none => runStepExec dir st s
  | some m =>
    if m = s.name then runStepExec dir st s
    else ([Event.skip s.name], st, true)

/-- The chained `step(...).then(...)` sequence: run the steps in order,
stopping at the first failing step. -/
def runSteps (dir : String) (st : Store) : List StepDef → List Event × Store × Bool
  | [] => ([], st, true)
  | s :: rest =>
    let r := runStep dir st s
    if r.2.2 then
      let r2 := runSteps dir r.2.1 rest
      (r.1 ++ r2.1, r2.2.1, r2.2.2)
    else r

/-- One target repository: its directory name, whether `git branch
--show-current` reports `main`, whether `git status --short` is empty,
and its step sequence. -/
structure RepoCfg where
  directory : String
  onMain : Bool
  clean : Bool
  steps : List StepDef
deriving DecidableEq

/-- The per-directory body of `publish`: the branch precondition, the
uncommitted-changes precondition (checked only when no marker exists and
`ignoreUncommitted` is not set), the step sequence, and on success the
assignment of the `"complete"` marker followed by `saveState()`. -/
def runRepo (ignoreUncommitted : Bool) (st : Store) (r : RepoCfg) :
    List Event × Store × Bool :=
  if !r.onMain then ([], st, false)
  else if !ignoreUncommitted && (storeGet st r.directory).isNone && !r.clean then
    ([], st, false)
  else
    let res := runSteps r.directory st r.steps
    if res.2.2 then
      let st2 := storeSet res.2.1 r.directory "complete"
      (res.1 ++ [Event.persist st2], st2, true)
    else res

/-- The `for (const directory of configuration.directories)` loop:
process the repositories in declaration order, aborting the whole run on
the first failure. -/
def publishRepos (ignoreUncommitted : Bool) (st : Store) :
    List RepoCfg → List Event × Store × Bool
  | [] => ([], st, true)
  | r :: rest =>
    let res := runRepo ignoreUncommitted st r
    if res.2.2 then
      let res2 := publishRepos ignoreUncommitted res.2.1 rest
      (res.1 ++ res2.1, res2.2.1, res2.2.2)
    else res

/-- The whole `publish` function: after every repository succeeded, reset
`directoryStates` to the empty object and `saveState()` one final time. -/
def publish (ignoreUncommitted : Bool) (st : Store) (repos : List RepoCfg) :
    List Event × Store × Bool :=
  let res := publishRepos ignoreUncommitted st repos
  if res.2.2 then (res.1 ++ [Event.persist ([] : Store)], ([] : Store), true)
  else res

/-- Names of the steps whose callback was invoked, in execution order. -/
def execNames (tr : List Event) : List String :=
  tr.filterMap fun e =>
    match e with
    | Event.exec n => some n
    | _ => none

/-- Names of the steps that were skipped, in order. -/
def skipNames (tr : List Event) : List String :=
  tr.filterMap fun e =>
    match e with
    | Event.skip n => some n
    | _ => none

/-- Decides the durability-point-1 property of a trace: every `exec`
event is preceded by a `persist` whose snapshot maps `dir` to the
executed step's name. `seen` accumulates the snapshots persisted so far. -/
def persistBeforeExecB (dir : String) : List Store → List Event → Bool
  | _, [] => true
  | seen, Event.exec name :: rest =>
    seen.any (fun st => storeGet st dir == some name) &&
      persistBeforeExecB dir seen rest
  | seen, Event.persist st :: rest => persistBeforeExecB dir (st :: seen) rest
  | seen, Event.skip _ :: rest => persistBeforeExecB dir seen rest

/-- One remote workflow run as returned by
`listWorkflowRunsForRepo(owner, repo, head_sha)`: its identifier, its
status (`queued`, `in_progress` or `completed`) and its conclusion. -/
structure WorkflowRun where
  id : Int
  status : String
  conclusion : String
deriving DecidableEq

/-- The ways the validation loop can come back. `outOfResponses` is the
model artifact for a finite response list that was exhausted while the
loop still wanted to poll again: the real loop has neither succeeded nor
failed yet at that point. -/
inductive ValidationResult where
  | success
  | parallelRuns
  | workflowFailed (conclusion : String)
  | notStarted
  | outOfResponses
deriving DecidableEq

/-- The `for (const workflowRun of response.data.workflow_runs)` loop of
`validateWorkflow`, instrumented with `obs`, the identifiers of the
not-yet-completed runs actually reached by the iteration. `wfID` is
`workflowRunID` (sentinel `-1`), `completed` the flag of the outer loop.
A `some` first component is a thrown error. -/
def processRuns (wfID : Int) (completed : Bool) (obs : List Int) :
    List WorkflowRun → Option ValidationResult × Int × Bool × List Int
  | [] => (none, wfID, completed, obs)
  | r :: rest =>
    if r.status ≠ "completed" then
      if r.id = wfID then processRuns wfID completed (obs ++ [r.id]) rest
      else if wfID = -1 then processRuns r.id completed (obs ++ [r.id]) rest
      else (some ValidationResult.parallelRuns, wfID, completed, obs ++ [r.id])
    else if r.id = wfID then
      if r.conclusion ≠ "success" then
        (some (ValidationResult.workflowFailed r.conclusion), wfID, completed, obs)
      else processRuns wfID true obs rest
    else processRuns wfID completed obs rest

/-- The `do ... while (!completed)` polling loop of `validateWorkflow`,
driven by an explicit list of responses (one list of runs per query).
After each response the run counter is incremented and the
`queryCount === 10 && workflowRunID === -1` timeout is tested, before the
`completed` flag ends the loop. -/
def validateLoop (wfID : Int) (queryCount : Nat) (obs : List Int) :
    List (List WorkflowRun) → ValidationResult × List Int
  | [] => (ValidationResult.outOfResponses, obs)
  | resp :: rest =>
    match processRuns wfID false obs resp with
    | (some e, _, _, obs2) => (e, obs2)
    | (none, wfID2, completed, obs2) =>
      if queryCount + 1 = 10 ∧ wfID2 = -1 then (ValidationResult.notStarted, obs2)
      else if completed then (ValidationResult.success, obs2)
      else validateLoop wfID2 (queryCount + 1) obs2 rest

/-- `validateWorkflow` on a given sequence of polling responses. -/
def validateWorkflow (responses : List (List WorkflowRun)) : ValidationResult :=
  (validateLoop (-1) 0 [] responses).1

/-- The not-yet-completed run identifiers the validator observed while it
ran, in observation order. -/
def observedRuns (responses : List (List WorkflowRun)) : List Int :=
  (validateLoop (-1) 0 [] responses).2

/-- The fields of `package.json` that the `package` step touches; the
dependency records keep their JavaScript key order as association lists. -/
structure PackageConfiguration where
  version : String
  devDependencies : Option (List (String × String))
  dependencies : Option (List (String × String))
deriving DecidableEq

/-- The `key.startsWith(organizationPrefix)` test of JavaScript, as a
character-level prefix check (kernel-evaluable, unlike the bundled
byte-level `String` test). -/
def strStartsWith (s p : String) : Bool :=
  p.data.isPrefixOf s.data

/-- The inner `updateDependencies` helper: rewrite the constraint of
every entry whose key starts with the organization namespace. -/
def updateDependencies (orgNamespace dependencyVersion : String) :
    Option (List (String × String)) → Option (List (String × String))
  | none => none
  | some deps =>
    some (deps.map fun kv =>
      if strStartsWith kv.1 orgNamespace then (kv.1, dependencyVersion) else kv)

/-- The `package` step's file transform: set the version field and
rewrite both dependency records. -/
def packageStep (version organization : String) (pc : PackageConfiguration) :
    PackageConfiguration :=
  let orgNamespace := "@" ++ organization ++ "/"
  let dependencyVersion := "^" ++ version
  { version := version
    devDependencies := updateDependencies orgNamespace dependencyVersion pc.devDependencies
    dependencies := updateDependencies orgNamespace dependencyVersion pc.dependencies }

theorem execNames_append (a b : List Event) :
    execNames (a ++ b) = execNames a ++ execNames b := by
  simp [execNames, List.filterMap_append]

theorem skipNames_append (a b : List Event) :
    skipNames (a ++ b) = skipNames a ++ skipNames b := by
  simp [skipNames, List.filterMap_append]

theorem skipNames_map_skip (l : List StepDef) :
    skipNames (l.map fun p => Event.skip p.name) = l.map StepDef.name := by
  induction l with
  | nil => rfl
  | cons p rest ih => simp [skipNames, List.filterMap_cons] at ih ⊢; exact ih

theorem execNames_map_skip (l : List StepDef) :
    execNames (l.map fun p => Event.skip p.name) = [] := by
  induction l with
  | nil => rfl
  | cons p rest ih => simp [execNames, List.filterMap_cons, ih]

theorem runStep_exec_ok (dir : String) (st : Store) (s : StepDef)
    (hget : storeGet st dir = none ∨ storeGet st dir = some s.name)
    (hs : s.outcome = StepOutcome.ok) :
    runStep dir st s =
      ([Event.exec s.name, Event.persist (storeErase (storeSet st dir s.name) dir)],
        storeErase (storeSet st dir s.name) dir, true) := by
  rcases hget with h | h <;> simp [runStep, runStepExec, h, hs]

theorem runStep_skip (dir : String) (st : Store) (s : StepDef) (m : String)
    (hget : storeGet st dir = some m) (hne : m ≠ s.name) :
    runStep dir st s = ([Event.skip s.name], st, true) := by
  simp [runStep, hget, hne]

theorem runSteps_cons_ok (dir : String) (st : Store) (s : StepDef) (rest : List StepDef)
    (h : (runStep dir st s).2.2 = true) :
    runSteps dir st (s :: rest) =
      ((runStep dir st s).1 ++ (runSteps dir (runStep dir st s).2.1 rest).1,
       (runSteps dir (runStep dir st s).2.1 rest).2) := by
  simp [runSteps, h]

theorem runSteps_fresh (dir : String) :
    ∀ steps : List StepDef, ∀ st : Store,
    (∀ x ∈ steps, x.outcome = StepOutcome.ok) → storeGet st dir = none →
    execNames (runSteps dir st steps).1 = steps.map StepDef.name ∧
    skipNames (runSteps dir st steps).1 = [] ∧
    storeGet (runSteps dir st steps).2.1 dir = none ∧
    (runSteps dir st steps).2.2 = true := by
  intro steps
  induction steps with
  | nil =>
    intro st _ hget
    exact ⟨rfl, rfl, hget, rfl⟩
  | cons s rest ih =>
    intro st hok hget
    have hs : s.outcome = StepOutcome.ok := hok s (by simp)
    have hstep := runStep_exec_ok dir st s (Or.inl hget) hs
    have hok2 : (runStep dir st s).2.2 = true := by rw [hstep]
    have hst2 : (runStep dir st s).2.1 = storeErase (storeSet st dir s.name) dir := by
      rw [hstep]
    have hget2 : storeGet (runStep dir st s).2.1 dir = none := by
      rw [hst2]; exact storeGet_erase_self _ _
    obtain ⟨ih1, ih2, ih3, ih4⟩ :=
      ih (runStep dir st s).2.1 (fun x hx => hok x (by simp [hx])) hget2
    rw [runSteps_cons_ok dir st s rest hok2]
    refine ⟨?_, ?_, ih3, ih4⟩
    · rw [execNames_append, ih1, hstep]
      simp [execNames, List.filterMap_cons]
    · rw [skipNames_append, ih2, hstep]
      simp [skipNames, List.filterMap_cons]

theorem runSteps_skip_front (dir : String) (S : String) :
    ∀ pre : List StepDef, ∀ st : Store, ∀ rest : List StepDef,
    storeGet st dir = some S → (∀ p ∈ pre, p.name ≠ S) →
    runSteps dir st (pre ++ rest) =
      ((pre.map fun p => Event.skip p.name) ++ (runSteps dir st rest).1,
       (runSteps dir st rest).2) := by
  intro pre
  induction pre with
  | nil => intro st rest _ _; simp
  | cons p pre ih =>
    intro st rest hget hpre
    have hne : p.name ≠ S := hpre p (by simp)
    have hstep : runStep dir st p = ([Event.skip p.name], st, true) :=
      runStep_skip dir st p S hget (fun h => hne h.symm)
    have hok : (runStep dir st p).2.2 = true := by rw [hstep]
    rw [List.cons_append, runSteps_cons_ok dir st p (pre ++ rest) hok, hstep]
    rw [ih st rest hget (fun q hq => hpre q (by simp [hq]))]
    simp

/-- Claim C1: when the progress marker names a step S of the step list,
running the sequence executes no step strictly before S (those are
skipped, not re-run), re-executes S itself, and then executes every step
after S in order; with no marker, execution starts at the first step and
every step runs. Steps are assumed to succeed, since a failing step
aborts the remainder by design. -/
theorem claim_c1_resume_from_marker (dir : String) (st : Store) (steps : List StepDef)
    (hok : ∀ x ∈ steps, x.outcome = StepOutcome.ok) :
    (storeGet st dir = none →
      execNames (runSteps dir st steps).1 = steps.map StepDef.name ∧
      skipNames (runSteps dir st steps).1 = []) ∧
    (∀ S : String, ∀ pre post : List StepDef, ∀ s : StepDef,
      storeGet st dir = some S → steps = pre ++ s :: post → s.name = S →
      (∀ p ∈ pre, p.name ≠ S) →
      execNames (runSteps dir st steps).1 = S :: post.map StepDef.name ∧
      skipNames (runSteps dir st steps).1 = pre.map StepDef.name) := by
  constructor
  · intro hget
    obtain ⟨h1, h2, _, _⟩ := runSteps_fresh dir steps st hok hget
    exact ⟨h1, h2⟩
  · intro S pre post s hget hsteps hname hpre
    subst hsteps
    rw [runSteps_skip_front dir S pre st (s :: post) hget hpre]
    have hs : s.outcome = StepOutcome.ok := hok s (by simp)
    have hstep := runStep_exec_ok dir st s (Or.inr (by rw [hget, hname])) hs
    have hok2 : (runStep dir st s).2.2 = true := by rw [hstep]
    have hget2 : storeGet (runStep dir st s).2.1 dir = none := by
      rw [hstep]; exact storeGet_erase_self _ _
    obtain ⟨f1, f2, _, _⟩ := runSteps_fresh dir post (runStep dir st s).2.1
      (fun x hx => hok x (by simp [hx])) hget2
    rw [runSteps_cons_ok dir st s post hok2]
    constructor
    · rw [execNames_append, execNames_map_skip, execNames_append, f1, hstep]
      simp [execNames, List.filterMap_cons, hname]
    · rw [skipNames_append, skipNames_map_skip, skipNames_append, f2, hstep]
      simp [skipNames, List.filterMap_cons]

/-- A one-step demonstration repository for concrete evaluations. -/
def demoRepo : RepoCfg :=
  { directory := "repo", onMain := true, clean := true,
    steps := [{ name := "package", outcome := StepOutcome.ok }] }

/-- A two-step demonstration repository. -/
def demoRepo2 : RepoCfg :=
  { directory := "repo", onMain := true, clean := true,
    steps := [{ name := "package", outcome := StepOutcome.ok },
              { name := "npm install", outcome := StepOutcome.ok }] }

/-- A progress store whose marker for `repo` names no step of the list. -/
def bogusStore : Store := [("repo", "bogus")]

theorem runStep_exec_err (dir : String) (st : Store) (s : StepDef)
    (hget : storeGet st dir = none ∨ storeGet st dir = some s.name)
    (hs : s.outcome = StepOutcome.err) :
    runStep dir st s =
      ([Event.exec s.name, Event.persist (storeSet st dir s.name)],
        storeSet st dir s.name, false) := by
  rcases hget with h | h <;> simp [runStep, runStepExec, h, hs]

/-- Claim C2 counterexample: in a fresh one-step run the very first event
is the `exec` of `"package"`, with no durable write before it; the
persists that follow carry a snapshot without the marker (the entry was
deleted before the `finally` write) and the `"complete"` record. The
durability-point-1 property is false on this run. -/
theorem claim_c2_counterexample :
    (runRepo false [] demoRepo).1 =
      [Event.exec "package", Event.persist ([] : Store),
       Event.persist ([("repo", "complete")] : Store)] ∧
    persistBeforeExecB "repo" [] (runRepo false [] demoRepo).1 = false := by
  exact ⟨rfl, rfl⟩

/-- Claim C2 amended: before the callback runs the marker is recorded
only in the in-memory store; the durable write happens exactly once per
executed step and after the callback has completed or failed (in the
`finally` block). The persisted snapshot has the entry removed when the
step succeeded and carries this step's name when it failed. -/
theorem claim_c2_amended_persist_after_callback (dir : String) (st : Store) (s : StepDef)
    (h : storeGet st dir = none ∨ storeGet st dir = some s.name) :
    (runStep dir st s).1 =
      [Event.exec s.name, Event.persist (runStep dir st s).2.1] ∧
    (s.outcome = StepOutcome.ok → storeGet (runStep dir st s).2.1 dir = none) ∧
    (s.outcome = StepOutcome.err →
      storeGet (runStep dir st s).2.1 dir = some s.name) := by
  cases hs : s.outcome with
  | ok =>
    rw [runStep_exec_ok dir st s h hs]
    refine ⟨rfl, ?_, ?_⟩
    · intro _
      exact storeGet_erase_self _ _
    · intro hc
      cases hc
  | err =>
    rw [runStep_exec_err dir st s h hs]
    refine ⟨rfl, ?_, ?_⟩
    · intro hc
      cases hc
    · intro _
      exact storeGet_set_self _ _ _

/-- Claim C2 amended, witnessed on a concrete step with an empty store. -/
theorem claim_c2_witness :
    (runStep "repo" ([] : Store) { name := "package", outcome := StepOutcome.ok }).1 =
      [Event.exec "package",
       Event.persist
         (runStep "repo" ([] : Store) { name := "package", outcome := StepOutcome.ok }).2.1] ∧
    storeGet
      (runStep "repo" ([] : Store) { name := "package", outcome := StepOutcome.ok }).2.1
      "repo" = none := by
  obtain ⟨h1, h2, _⟩ :=
    claim_c2_amended_persist_after_callback "repo" ([] : Store)
      { name := "package", outcome := StepOutcome.ok } (Or.inl rfl)
  exact ⟨h1, h2 rfl⟩

theorem runSteps_unknown_marker (dir : String) (m : String) :
    ∀ steps : List StepDef, ∀ st : Store,
    storeGet st dir = some m → m ∉ steps.map StepDef.name →
    runSteps dir st steps =
      ((steps.map fun p => Event.skip p.name), st, true) := by
  intro steps
  induction steps with
  | nil => intro st _ _; rfl
  | cons s rest ih =>
    intro st hget hmem
    have hne : m ≠ s.name := fun h => hmem (by simp [h])
    have hstep := runStep_skip dir st s m hget hne
    have hok : (runStep dir st s).2.2 = true := by rw [hstep]
    rw [runSteps_cons_ok dir st s rest hok, hstep]
    simp only [List.map_cons]
    rw [ih st hget (fun h => hmem (by simp [h]))]
    rfl

/-- Claim C3 counterexample: with marker `"bogus"`, which names no step
of the two-step list, the run does not abort with an inconsistency error:
it succeeds, executes no step at all, and rewrites the marker to
`"complete"`. -/
theorem claim_c3_counterexample :
    (runRepo false bogusStore demoRepo2).2.2 = true ∧
    execNames (runRepo false bogusStore demoRepo2).1 = [] ∧
    storeGet (runRepo false bogusStore demoRepo2).2.1 "repo" = some "complete" := by
  exact ⟨rfl, rfl, rfl⟩

/-- Claim C3 amended: a marker that names no step of the list does not
abort the run; every step is skipped as if already completed, no callback
executes, and the run proceeds to mark the repository `"complete"`. -/
theorem claim_c3_amended_unknown_marker_skips (ign : Bool) (st : Store) (r : RepoCfg)
    (m : String) (hmain : r.onMain = true) (hget : storeGet st r.directory = some m)
    (hmem : m ∉ r.steps.map StepDef.name) :
    (runRepo ign st r).2.2 = true ∧
    execNames (runRepo ign st r).1 = [] ∧
    storeGet (runRepo ign st r).2.1 r.directory = some "complete" := by
  have hsteps := runSteps_unknown_marker r.directory m r.steps st hget hmem
  simp only [runRepo, hmain, Bool.not_true, Bool.false_eq_true, if_false, hget,
    Option.isNone_some, Bool.and_false, Bool.false_and, hsteps, if_true]
  refine ⟨trivial, ?_, storeGet_set_self _ _ _⟩
  rw [execNames_append, execNames_map_skip]
  rfl

/-- Claim C3 amended, witnessed on a concrete unknown marker. -/
theorem claim_c3_witness :
    (runRepo true ([("repo", "garbage")] : Store) demoRepo).2.2 = true ∧
    execNames (runRepo true ([("repo", "garbage")] : Store) demoRepo).1 = [] ∧
    storeGet (runRepo true ([("repo", "garbage")] : Store) demoRepo).2.1 "repo" =
      some "complete" :=
  claim_c3_amended_unknown_marker_skips true ([("repo", "garbage")] : Store) demoRepo
    "garbage" rfl rfl (by decide)

theorem exists_first_matching_step (S : String) :
    ∀ steps : List StepDef, S ∈ steps.map StepDef.name →
    ∃ pre s post, steps = pre ++ s :: post ∧ s.name = S ∧ ∀ p ∈ pre, p.name ≠ S := by
  intro steps
  induction steps with
  | nil => intro h; simp at h
  | cons a rest ih =>
    intro h
    by_cases ha : a.name = S
    · exact ⟨[], a, rest, rfl, ha, by simp⟩
    · have hmem : S ∈ rest.map StepDef.name := by
        rw [List.map_cons] at h
        rcases List.mem_cons.mp h with h1 | h1
        · exact absurd h1.symm ha
        · exact h1
      obtain ⟨pre, s, post, h1, h2, h3⟩ := ih hmem
      refine ⟨a :: pre, s, post, by rw [h1]; rfl, h2, ?_⟩
      intro p hp
      rcases List.mem_cons.mp hp with h4 | h4
      · rw [h4]; exact ha
      · exact h3 p h4

theorem runSteps_resume_final (dir : String) (st : Store) (steps : List StepDef)
    (hok : ∀ x ∈ steps, x.outcome = StepOutcome.ok)
    (hm : storeGet st dir = none ∨
      ∃ S ∈ steps.map StepDef.name, storeGet st dir = some S) :
    storeGet (runSteps dir st steps).2.1 dir = none ∧
    (runSteps dir st steps).2.2 = true := by
  rcases hm with hget | ⟨S, hS, hget⟩
  · obtain ⟨_, _, h3, h4⟩ := runSteps_fresh dir steps st hok hget
    exact ⟨h3, h4⟩
  · obtain ⟨pre, s, post, hsplit, hname, hpre⟩ := exists_first_matching_step S steps hS
    subst hsplit
    rw [runSteps_skip_front dir S pre st (s :: post) hget hpre]
    have hs : s.outcome = StepOutcome.ok := hok s (by simp)
    have hstep := runStep_exec_ok dir st s (Or.inr (by rw [hget, hname])) hs
    have hok2 : (runStep dir st s).2.2 = true := by rw [hstep]
    have hget2 : storeGet (runStep dir st s).2.1 dir = none := by
      rw [hstep]; exact storeGet_erase_self _ _
    obtain ⟨_, _, f3, f4⟩ := runSteps_fresh dir post (runStep dir st s).2.1
      (fun x hx => hok x (by simp [hx])) hget2
    rw [runSteps_cons_ok dir st s post hok2]
    exact ⟨f3, f4⟩

theorem runRepo_success_complete (ign : Bool) (st : Store) (r : RepoCfg)
    (h : (runRepo ign st r).2.2 = true) :
    storeGet (runRepo ign st r).2.1 r.directory = some "complete" ∧
    (runRepo ign st r).1.getLast? = some (Event.persist (runRepo ign st r).2.1) := by
  by_cases h1 : r.onMain
  · by_cases h2 : (!ign && (storeGet st r.directory).isNone && !r.clean) = true
    · simp [runRepo, h1, h2] at h
    · by_cases h3 : (runSteps r.directory st r.steps).2.2 = true
      · simp only [runRepo, h1, Bool.not_true, Bool.false_eq_true, if_false,
          h2, h3, if_true]
        exact ⟨storeGet_set_self _ _ _, by rw [List.getLast?_concat]⟩
      · simp only [runRepo, h1, Bool.not_true, Bool.false_eq_true, if_false,
          h2, h3] at h
  · simp [runRepo, h1] at h

/-- Claim C1, witnessed on a three-step sequence resumed at its middle
step: the first step is skipped and the marked step plus its successor
execute. -/
theorem claim_c1_witness :
    execNames (runSteps "repo" ([("repo", "npm install")] : Store)
      [{ name := "package", outcome := StepOutcome.ok },
       { name := "npm install", outcome := StepOutcome.ok },
       { name := "git commit", outcome := StepOutcome.ok }]).1 =
      ["npm install", "git commit"] ∧
    skipNames (runSteps "repo" ([("repo", "npm install")] : Store)
      [{ name := "package", outcome := StepOutcome.ok },
       { name := "npm install", outcome := StepOutcome.ok },
       { name := "git commit", outcome := StepOutcome.ok }]).1 =
      ["package"] := by
  have h := (claim_c1_resume_from_marker "repo" ([("repo", "npm install")] : Store)
    [{ name := "package", outcome := StepOutcome.ok },
     { name := "npm install", outcome := StepOutcome.ok },
     { name := "git commit", outcome := StepOutcome.ok }] (by decide)).2
    "npm install"
    [{ name := "package", outcome := StepOutcome.ok }]
    [{ name := "git commit", outcome := StepOutcome.ok }]
    { name := "npm install", outcome := StepOutcome.ok }
    rfl rfl rfl (by decide)
  exact h

/-- Claim C4 counterexample: a one-step repository whose run fully
succeeds ends with its marker set to `"complete"`: the repository does
have an entry in the progress store. -/
theorem claim_c4_counterexample :
    (runRepo false ([] : Store) demoRepo).2.2 = true ∧
    storeGet (runRepo false ([] : Store) demoRepo).2.1 "repo" = some "complete" := by
  exact ⟨rfl, rfl⟩

/-- Claim C4 amended: at the durable write of the last step — immediately
after all steps of the repository succeed — the repository has no entry
in the store; the sequencer then records the `"complete"` sentinel for
it, which stays until the end of the whole run. -/
theorem claim_c4_amended_entry_after_steps (dir : String) (st : Store)
    (steps : List StepDef)
    (hok : ∀ x ∈ steps, x.outcome = StepOutcome.ok)
    (hm : storeGet st dir = none ∨
      ∃ S ∈ steps.map StepDef.name, storeGet st dir = some S) :
    (storeGet (runSteps dir st steps).2.1 dir = none ∧
      (runSteps dir st steps).2.2 = true) ∧
    (∀ ign : Bool, ∀ st' : Store, ∀ r : RepoCfg, (runRepo ign st' r).2.2 = true →
      storeGet (runRepo ign st' r).2.1 r.directory = some "complete") :=
  ⟨runSteps_resume_final dir st steps hok hm,
   fun ign st' r h => (runRepo_success_complete ign st' r h).1⟩

/-- Claim C4 amended, witnessed on the one-step demonstration run. -/
theorem claim_c4_witness :
    (storeGet (runSteps "repo" ([] : Store) demoRepo.steps).2.1 "repo" = none ∧
      (runSteps "repo" ([] : Store) demoRepo.steps).2.2 = true) ∧
    storeGet (runRepo false ([] : Store) demoRepo).2.1 "repo" = some "complete" := by
  obtain ⟨h1, h2⟩ := claim_c4_amended_entry_after_steps "repo" ([] : Store)
    demoRepo.steps (by decide) (Or.inl rfl)
  exact ⟨h1, h2 false ([] : Store) demoRepo rfl⟩

/-- Claim C5: after the last step of a repository succeeds, the marker is
set to the `"complete"` sentinel and persisted as the final durable write
of that repository's processing, before the next repository is taken up;
and after every repository finishes, the store is reset to the empty
mapping and an empty store is persisted as the final write of the run. -/
theorem claim_c5_complete_then_clear (ign : Bool) (st st0 : Store) (r : RepoCfg)
    (repos : List RepoCfg) :
    ((runRepo ign st r).2.2 = true →
      storeGet (runRepo ign st r).2.1 r.directory = some "complete" ∧
      (runRepo ign st r).1.getLast? = some (Event.persist (runRepo ign st r).2.1)) ∧
    ((publish ign st0 repos).2.2 = true →
      (publish ign st0 repos).2.1 = ([] : Store) ∧
      (publish ign st0 repos).1.getLast? = some (Event.persist ([] : Store))) := by
  constructor
  · exact fun h => runRepo_success_complete ign st r h
  · intro h
    by_cases h2 : (publishRepos ign st0 repos).2.2 = true
    · simp only [publish, h2, if_true]
      exact ⟨trivial, by rw [List.getLast?_concat]⟩
    · simp only [publish, h2, if_false] at h
      exact absurd h h2

/-- Claim C5, witnessed on a one-repository run. -/
theorem claim_c5_witness :
    storeGet (runRepo false ([] : Store) demoRepo).2.1 "repo" = some "complete" ∧
    (publish false ([] : Store) [demoRepo]).2.1 = ([] : Store) := by
  obtain ⟨h1, h2⟩ := claim_c5_complete_then_clear false ([] : Store) ([] : Store)
    demoRepo [demoRepo]
  exact ⟨(h1 rfl).1, (h2 rfl).1⟩

theorem validateLoop_empty_front :
    ∀ n : Nat, ∀ qc : Nat, ∀ obs : List Int, ∀ responses : List (List WorkflowRun),
    qc + (n + 1) = 10 → n + 1 ≤ responses.length →
    (∀ resp ∈ responses.take (n + 1), resp = []) →
    (validateLoop (-1) qc obs responses).1 = ValidationResult.notStarted := by
  intro n
  induction n with
  | zero =>
    intro qc obs responses hqc hlen htake
    cases responses with
    | nil => simp at hlen
    | cons resp rest =>
      have hresp : resp = [] := htake resp (by simp)
      subst hresp
      simp only [validateLoop, processRuns]
      rw [if_pos ⟨by omega, by trivial⟩]
  | succ k ih =>
    intro qc obs responses hqc hlen htake
    cases responses with
    | nil => simp at hlen
    | cons resp rest =>
      have hresp : resp = [] := htake resp (by simp)
      subst hresp
      simp only [validateLoop, processRuns]
      rw [if_neg (fun hand => absurd hand.1 (by omega))]
      simp only [Bool.false_eq_true, if_false]
      exact ih (qc + 1) obs rest (by omega) (by simpa using hlen)
        (fun x hx => htake x (by
          rw [List.take_succ_cons]
          exact List.mem_cons_of_mem _ hx))

/-- Claim C7: when each of the first ten polling queries returns zero
workflow runs for the commit, the validator fails with the
workflow-run-not-started timeout instead of polling on. -/
theorem claim_c7_timeout_no_runs (responses : List (List WorkflowRun))
    (h1 : 10 ≤ responses.length)
    (h2 : ∀ resp ∈ responses.take 10, resp = []) :
    validateWorkflow responses = ValidationResult.notStarted :=
  validateLoop_empty_front 9 0 [] responses (by omega) (by omega) h2

/-- Claim C7, witnessed on ten empty responses. -/
theorem claim_c7_witness :
    validateWorkflow (List.replicate 10 ([] : List WorkflowRun)) =
      ValidationResult.notStarted :=
  claim_c7_timeout_no_runs (List.replicate 10 ([] : List WorkflowRun))
    (by decide) (by decide)

theorem processRuns_all_completed :
    ∀ runs : List WorkflowRun, ∀ completed : Bool, ∀ obs : List Int,
    (∀ r ∈ runs, r.status = "completed" ∧ r.id ≠ -1) →
    processRuns (-1) completed obs runs = (none, -1, completed, obs) := by
  intro runs
  induction runs with
  | nil => intro completed obs _; rfl
  | cons r rest ih =>
    intro completed obs h
    obtain ⟨hst, hid⟩ := h r (by simp)
    simp only [processRuns]
    rw [if_neg (fun hne => hne hst), if_neg hid]
    exact ih completed obs (fun x hx => h x (by simp [hx]))

theorem validateLoop_all_completed :
    ∀ responses : List (List WorkflowRun), ∀ qc : Nat, ∀ obs : List Int,
    (∀ resp ∈ responses, ∀ r ∈ resp, r.status = "completed" ∧ r.id ≠ -1) →
    qc < 10 → 10 ≤ qc + responses.length →
    (validateLoop (-1) qc obs responses).1 = ValidationResult.notStarted := by
  intro responses
  induction responses with
  | nil =>
    intro qc obs _ hlt hge
    simp at hge
    omega
  | cons resp rest ih =>
    intro qc obs hall hlt hge
    have hpr := processRuns_all_completed resp false obs (hall resp (by simp))
    simp only [validateLoop, hpr]
    by_cases hq : qc + 1 = 10
    · rw [if_pos ⟨hq, by trivial⟩]
    · rw [if_neg (fun hand => hq hand.1)]
      simp only [Bool.false_eq_true, if_false]
      refine ih (qc + 1) obs (fun x hx => hall x (by simp [hx])) (by omega) ?_
      simp only [List.length_cons] at hge
      omega

/-- Claim C10: when every run the polling queries ever return already has
status `"completed"` when observed (with a genuine GitHub identifier, in
particular never the `-1` sentinel), the validator never locks onto any
run and never reports success: given at least ten responses it fails with
the workflow-run-not-started error, even when a successfully concluded
run for the commit is among them. -/
theorem claim_c10_completed_runs_not_locked (responses : List (List WorkflowRun))
    (h1 : 10 ≤ responses.length)
    (h2 : ∀ resp ∈ responses, ∀ r ∈ resp, r.status = "completed" ∧ r.id ≠ -1) :
    validateWorkflow responses = ValidationResult.notStarted ∧
    validateWorkflow responses ≠ ValidationResult.success := by
  have h : validateWorkflow responses = ValidationResult.notStarted :=
    validateLoop_all_completed responses 0 [] h2 (by omega) (by omega)
  refine ⟨h, ?_⟩
  rw [h]
  intro hc
  cases hc

/-- A workflow run that is already completed successfully. -/
def completedRun : WorkflowRun :=
  { id := 123, status := "completed", conclusion := "success" }

/-- Claim C10, witnessed on ten responses that each carry one completed
successful run. -/
theorem claim_c10_witness :
    validateWorkflow (List.replicate 10 [completedRun]) =
      ValidationResult.notStarted :=
  (claim_c10_completed_runs_not_locked (List.replicate 10 [completedRun])
    (by decide) (by decide)).1

/-- A perpetually not-yet-completed workflow run. -/
def runningRun : WorkflowRun := { id := 7, status := "in_progress", conclusion := "" }

theorem validateLoop_locked_running (r : WorkflowRun)
    (hst : ¬ r.status = "completed") (hid : r.id ≠ -1) :
    ∀ n : Nat, ∀ qc : Nat, ∀ obs : List Int,
    (validateLoop r.id qc obs (List.replicate n [r])).1 =
      ValidationResult.outOfResponses := by
  intro n
  induction n with
  | zero => intro qc obs; rfl
  | succ k ih =>
    intro qc obs
    have hpr : processRuns r.id false obs [r] = (none, r.id, false, obs ++ [r.id]) := by
      simp only [processRuns]
      rw [if_pos hst, if_pos trivial]
    simp only [List.replicate_succ, validateLoop, hpr]
    rw [if_neg (fun hand => hid hand.2)]
    simp only [Bool.false_eq_true, if_false]
    exact ih (qc + 1) (obs ++ [r.id])

/-- Claim C8 counterexample: after 31 polling responses — beyond both the
claimed 10-attempt and 30-attempt bounds — that keep showing a
not-yet-completed run, the loop has neither succeeded nor failed: the
response list is exhausted with the loop still wanting to poll again, so
it does not terminate within the claimed bound of attempts. -/
theorem claim_c8_counterexample :
    validateWorkflow (List.replicate 31 [runningRun]) =
      ValidationResult.outOfResponses := by
  decide

/-- Claim C8 amended: the loop is bounded only while no run has been
locked (ten attempts, ending in the not-started failure); once a run is
locked and every response keeps reporting it as not completed, the loop
polls on after any number of responses — it never terminates. -/
theorem claim_c8_amended_no_termination_once_locked (r : WorkflowRun) (n : Nat)
    (hst : ¬ r.status = "completed") (hid : r.id ≠ -1) :
    validateWorkflow (List.replicate n [r]) = ValidationResult.outOfResponses := by
  cases n with
  | zero => rfl
  | succ k =>
    have hpr : processRuns (-1) false [] [r] = (none, r.id, false, [r.id]) := by
      simp only [processRuns]
      rw [if_pos hst, if_neg hid, if_pos trivial]
      rfl
    show (validateLoop (-1) 0 [] (List.replicate (k + 1) [r])).1 =
      ValidationResult.outOfResponses
    simp only [List.replicate_succ, validateLoop, hpr]
    rw [if_neg (fun hand => hid hand.2)]
    simp only [Bool.false_eq_true, if_false]
    exact validateLoop_locked_running r hst hid k 1 [r.id]

/-- Claim C8 amended, witnessed at 42 polling responses. -/
theorem claim_c8_witness :
    validateWorkflow (List.replicate 42 [runningRun]) =
      ValidationResult.outOfResponses :=
  claim_c8_amended_no_termination_once_locked runningRun 42 (by decide) (by decide)

theorem processRuns_obs_inv :
    ∀ runs : List WorkflowRun, ∀ wfID : Int, ∀ completed : Bool, ∀ obs : List Int,
    (∀ r ∈ runs, r.id ≠ -1) → (wfID = -1 → obs = []) → (∀ x ∈ obs, x = wfID) →
    (processRuns wfID completed obs runs).1 ≠ some ValidationResult.parallelRuns →
    ((processRuns wfID completed obs runs).2.1 = -1 →
      (processRuns wfID completed obs runs).2.2.2 = []) ∧
    (∀ x ∈ (processRuns wfID completed obs runs).2.2.2,
      x = (processRuns wfID completed obs runs).2.1) := by
  intro runs
  induction runs with
  | nil =>
    intro wfID completed obs _ h1 h2 _
    exact ⟨h1, h2⟩
  | cons r rest ih =>
    intro wfID completed obs hids h1 h2 hnp
    have hid : r.id ≠ -1 := hids r (by simp)
    have hids2 : ∀ x ∈ rest, x.id ≠ -1 := fun x hx => hids x (by simp [hx])
    by_cases hst : r.status ≠ "completed"
    · by_cases heq : r.id = wfID
      · have hrw : processRuns wfID completed obs (r :: rest) =
            processRuns wfID completed (obs ++ [r.id]) rest := by
          simp only [processRuns]
          rw [if_pos hst, if_pos heq]
        rw [hrw] at hnp ⊢
        refine ih wfID completed (obs ++ [r.id]) hids2
          (fun hc => absurd (heq.trans hc) hid) ?_ hnp
        intro x hx
        rcases List.mem_append.mp hx with hxx | hxx
        · exact h2 x hxx
        · rw [List.mem_singleton] at hxx
          rw [hxx]
          exact heq
      · by_cases hm1 : wfID = -1
        · have hobs : obs = [] := h1 hm1
          have hrw : processRuns wfID completed obs (r :: rest) =
              processRuns r.id completed (obs ++ [r.id]) rest := by
            simp only [processRuns]
            rw [if_pos hst, if_neg heq, if_pos hm1]
          rw [hrw] at hnp ⊢
          refine ih r.id completed (obs ++ [r.id]) hids2
            (fun hc => absurd hc hid) ?_ hnp
          intro x hx
          rw [hobs] at hx
          rw [List.nil_append, List.mem_singleton] at hx
          rw [hx]
        · have hrw : processRuns wfID completed obs (r :: rest) =
              (some ValidationResult.parallelRuns, wfID, completed, obs ++ [r.id]) := by
            simp only [processRuns]
            rw [if_pos hst, if_neg heq, if_neg hm1]
          rw [hrw] at hnp
          exact absurd rfl hnp
    · by_cases heq : r.id = wfID
      · by_cases hcc : r.conclusion ≠ "success"
        · have hrw : processRuns wfID completed obs (r :: rest) =
              (some (ValidationResult.workflowFailed r.conclusion),
                wfID, completed, obs) := by
            simp only [processRuns]
            rw [if_neg hst, if_pos heq, if_pos hcc]
          rw [hrw] at hnp ⊢
          exact ⟨h1, h2⟩
        · have hrw : processRuns wfID completed obs (r :: rest) =
              processRuns wfID true obs rest := by
            simp only [processRuns]
            rw [if_neg hst, if_pos heq, if_neg hcc]
          rw [hrw] at hnp ⊢
          exact ih wfID true obs hids2 h1 h2 hnp
      · have hrw : processRuns wfID completed obs (r :: rest) =
            processRuns wfID completed obs rest := by
          simp only [processRuns]
          rw [if_neg hst, if_neg heq]
        rw [hrw] at hnp ⊢
        exact ih wfID completed obs hids2 h1 h2 hnp

theorem validateLoop_obs_inv :
    ∀ responses : List (List WorkflowRun), ∀ wfID : Int, ∀ qc : Nat, ∀ obs : List Int,
    (∀ resp ∈ responses, ∀ r ∈ resp, r.id ≠ -1) →
    (wfID = -1 → obs = []) → (∀ x ∈ obs, x = wfID) →
    (validateLoop wfID qc obs responses).1 ≠ ValidationResult.parallelRuns →
    ∀ x ∈ (validateLoop wfID qc obs responses).2,
      ∀ y ∈ (validateLoop wfID qc obs responses).2, x = y := by
  intro responses
  induction responses with
  | nil =>
    intro wfID qc obs _ _ h2 _ x hx y hy
    rw [h2 x hx, h2 y hy]
  | cons resp rest ih =>
    intro wfID qc obs hids h1 h2 hnp
    rcases hpr : processRuns wfID false obs resp with ⟨e, wfID2, c2, obs2⟩
    have hinv := processRuns_obs_inv resp wfID false obs (hids resp (by simp)) h1 h2
    rw [hpr] at hinv
    cases e with
    | some err =>
      have hrw : validateLoop wfID qc obs (resp :: rest) = (err, obs2) := by
        simp only [validateLoop, hpr]
      have herr : err ≠ ValidationResult.parallelRuns := by
        rw [hrw] at hnp
        exact fun hc => hnp hc
      have hinv2 := hinv (fun hc => herr (Option.some.inj hc))
      rw [hrw]
      intro x hx y hy
      rw [hinv2.2 x hx, hinv2.2 y hy]
    | none =>
      have hinv2 := hinv (fun hc => Option.noConfusion hc)
      by_cases hq : qc + 1 = 10 ∧ wfID2 = -1
      · have hrw : validateLoop wfID qc obs (resp :: rest) =
            (ValidationResult.notStarted, obs2) := by
          simp only [validateLoop, hpr]
          rw [if_pos hq]
        rw [hrw]
        intro x hx y hy
        rw [hinv2.2 x hx, hinv2.2 y hy]
      · cases c2 with
        | true =>
          have hrw : validateLoop wfID qc obs (resp :: rest) =
              (ValidationResult.success, obs2) := by
            simp only [validateLoop, hpr]
            rw [if_neg hq]
            simp
          rw [hrw]
          intro x hx y hy
          rw [hinv2.2 x hx, hinv2.2 y hy]
        | false =>
          have hrw : validateLoop wfID qc obs (resp :: rest) =
              validateLoop wfID2 (qc + 1) obs2 rest := by
            simp only [validateLoop, hpr]
            rw [if_neg hq]
            simp
          rw [hrw] at hnp ⊢
          exact ih wfID2 (qc + 1) obs2 (fun x hx => hids x (by simp [hx]))
            hinv2.1 hinv2.2 hnp

/-- Claim C6: whenever the validator observes two distinct
not-yet-completed workflow runs for the commit — within one polling
response or across responses — it terminates with the parallel-runs
anomaly failure and never reports success. Run identifiers are genuine
GitHub identifiers, in particular never the `-1` sentinel. -/
theorem claim_c6_parallel_anomaly (responses : List (List WorkflowRun)) (a b : Int)
    (hids : ∀ resp ∈ responses, ∀ r ∈ resp, r.id ≠ -1)
    (ha : a ∈ observedRuns responses) (hb : b ∈ observedRuns responses)
    (hab : a ≠ b) :
    validateWorkflow responses = ValidationResult.parallelRuns ∧
    validateWorkflow responses ≠ ValidationResult.success := by
  have hmain : validateWorkflow responses = ValidationResult.parallelRuns := by
    by_contra hne
    exact hab (validateLoop_obs_inv responses (-1) 0 [] hids (fun _ => rfl)
      (fun x hx => absurd hx (List.not_mem_nil x)) hne a ha b hb)
  refine ⟨hmain, ?_⟩
  rw [hmain]
  intro hc
  cases hc

/-- A not-yet-completed run distinct from `queuedRun`. -/
def runningRun5 : WorkflowRun := { id := 5, status := "in_progress", conclusion := "" }

/-- A second not-yet-completed run for the same commit. -/
def queuedRun : WorkflowRun := { id := 6, status := "queued", conclusion := "" }

/-- Claim C6, witnessed on a single response carrying two distinct
not-yet-completed runs. -/
theorem claim_c6_witness :
    validateWorkflow [[runningRun5, queuedRun]] = ValidationResult.parallelRuns ∧
    validateWorkflow [[runningRun5, queuedRun]] ≠ ValidationResult.success :=
  claim_c6_parallel_anomaly [[runningRun5, queuedRun]] 5 6 (by decide) (by decide)
    (by decide) (by decide)

theorem updateDependencies_get (orgNamespace dependencyVersion : String)
    (deps : List (String × String)) (i : Nat) (name c : String)
    (h : deps.get? i = some (name, c)) :
    (deps.map fun kv =>
      if strStartsWith kv.1 orgNamespace then (kv.1, dependencyVersion) else kv).get? i =
      some (name, if strStartsWith name orgNamespace then dependencyVersion else c) := by
  rw [List.get?_map, h]
  by_cases hs : strStartsWith name orgNamespace
  · simp [hs]
  · simp [hs]

/-- Claim C9: the `package` step sets the manifest's version field to the
plan's target version and rewrites, in both dependency records, the
constraint of exactly those entries whose name starts with the
organization namespace `@<organization>/` to `^<version>`; every other
entry keeps its constraint, all names and positions are unchanged, and
absent records stay absent. -/
theorem claim_c9_manifest_rewrite (version organization : String)
    (pc : PackageConfiguration) :
    (packageStep version organization pc).version = version ∧
    (∀ deps : List (String × String), ∀ i : Nat, ∀ name c : String,
      pc.dependencies = some deps → deps.get? i = some (name, c) →
      ∃ deps', (packageStep version organization pc).dependencies = some deps' ∧
        deps'.length = deps.length ∧
        deps'.get? i = some (name,
          if strStartsWith name ("@" ++ organization ++ "/") then "^" ++ version
          else c)) ∧
    (∀ deps : List (String × String), ∀ i : Nat, ∀ name c : String,
      pc.devDependencies = some deps → deps.get? i = some (name, c) →
      ∃ deps', (packageStep version organization pc).devDependencies = some deps' ∧
        deps'.length = deps.length ∧
        deps'.get? i = some (name,
          if strStartsWith name ("@" ++ organization ++ "/") then "^" ++ version
          else c)) ∧
    (pc.dependencies = none →
      (packageStep version organization pc).dependencies = none) ∧
    (pc.devDependencies = none →
      (packageStep version organization pc).devDependencies = none) := by
  refine ⟨rfl, ?_, ?_, ?_, ?_⟩
  · intro deps i name c hdeps hget
    refine ⟨_, ?_, List.length_map _ _,
      updateDependencies_get ("@" ++ organization ++ "/") ("^" ++ version)
        deps i name c hget⟩
    simp [packageStep, updateDependencies, hdeps]
  · intro deps i name c hdeps hget
    refine ⟨_, ?_, List.length_map _ _,
      updateDependencies_get ("@" ++ organization ++ "/") ("^" ++ version)
        deps i name c hget⟩
    simp [packageStep, updateDependencies, hdeps]
  · intro h
    simp [packageStep, updateDependencies, h]
  · intro h
    simp [packageStep, updateDependencies, h]

/-- The manifest of the specification's example scenario. -/
def demoPkg : PackageConfiguration :=
  { version := "2.0.0", devDependencies := none,
    dependencies := some [("@org/lib", "^2.0.0"), ("left-pad", "1.0.0")] }

/-- Claim C9, witnessed on the example manifest: the organization-scoped
dependency is rewritten to the new caret constraint. -/
theorem claim_c9_witness :
    (packageStep "2.1.0-beta" "org" demoPkg).version = "2.1.0-beta" ∧
    ∃ deps', (packageStep "2.1.0-beta" "org" demoPkg).dependencies = some deps' ∧
      deps'.length = 2 ∧ deps'.get? 0 = some ("@org/lib", "^2.1.0-beta") := by
  obtain ⟨h1, h2, _, _, _⟩ := claim_c9_manifest_rewrite "2.1.0-beta" "org" demoPkg
  obtain ⟨d, hd, hl, hg⟩ :=
    h2 [("@org/lib", "^2.0.0"), ("left-pad", "1.0.0")] 0 "@org/lib" "^2.0.0" rfl rfl
  refine ⟨h1, d, hd, hl, ?_⟩
  rw [hg]
  decide
